import Mathlib

/-!
Verification of the inference pipeline of `res_unet/seg_images_in_folder.py`
(Doodleverse segmentation repository).

The file shallowly embeds the inference-time logic of the script:

* the test-time-augmentation (TTA) shift/weight schedule of the binary path,
* the adaptive threshold selection (`threshold_otsu` of scikit-image plus
  the 0.75 cap and fallback),
* the confidence-map construction,
* the mask cleaner (binarize, `remove_small_holes`, `remove_small_objects`,
  re-binarize),
* the per-file prediction loop's error behaviour,
* `standardize` / `rescale`,
* the ensemble combination (`np.average` with weights),
* the multiclass path (per-class `maximum_filter`, resize, argmax/max),
* the set of artifacts written per processed image.

Machine floats are modelled by exact arithmetic (`ℚ` where the script's
values are exactly representable, `ℝ` where square roots occur).  A numpy
division by zero, which silently poisons the whole array with NaN, is
modelled by `Option` with `none` standing for the NaN-filled array.
-/

namespace SegGym

/-- Index set of an `m × n` array (row, column). -/
abbrev Cell (m n : ℕ) := Fin m × Fin n

/-! ### Small list utilities (numpy `min` / `max` / `argmax` over flattened data) -/

/-- Minimum of a list of rationals (`np.min` of the flattened array);
junk value `0` on the empty list, which never occurs at the call sites. -/
def minQ : List ℚ → ℚ
  | [] => 0
  | [x] => x
  | x :: y :: t => min x (minQ (y :: t))

/-- Maximum of a list of rationals (`np.max` of the flattened array);
junk value `0` on the empty list, which never occurs at the call sites. -/
def maxQ : List ℚ → ℚ
  | [] => 0
  | [x] => x
  | x :: y :: t => max x (maxQ (y :: t))

/-- First index of the maximal element (`np.argmax`): ties resolve to the
earliest index, as numpy does; junk value `0` on the empty list. -/
def argmaxIdx : List ℚ → ℕ
  | [] => 0
  | [_] => 0
  | x :: y :: t =>
    let j := argmaxIdx (y :: t)
    if x < (y :: t).getD j 0 then j + 1 else 0

/-! ### C1: the TTA shift/weight schedule of the binary path

Source (`seg_images_in_folder.py`, lines 622-638):

    E = []; W = []
    E.append(model.predict(tf.expand_dims(image, 0), batch_size=1).squeeze())
    W.append(1)
    for k in np.linspace(100,int(TARGET_SIZE[0]),10):
        E.append(model.predict(... np.roll(image, int(k)) ...))
        W.append(2*(1/np.sqrt(k)))
    for k in np.linspace(100,int(TARGET_SIZE[0]),10):
        E.append(model.predict(... np.roll(image, -int(k)) ...))
        W.append(2*(1/np.sqrt(k)))

A member is modelled by the cyclic shift handed to `np.roll` (Python `int()`
truncates the linspace value) together with its real weight. -/

/-- `np.linspace a b num`: `num` evenly spaced samples from `a` to `b`
inclusive (exact in `ℚ`, matching the float endpoints). -/
def linspace (a b : ℚ) (num : ℕ) : List ℚ :=
  (List.range num).map
    (fun (i : ℕ) => a + (i : ℚ) * ((b - a) / ((num - 1 : ℕ) : ℚ)))

/-- The shift schedule of the binary path: `np.linspace(100, TARGET_SIZE[0], 10)`. -/
def ttaOffsets (T : ℕ) : List ℚ :=
  linspace 100 T 10

/-- The `i`-th value of the shift schedule, written out. -/
def ttaOff (T : ℕ) (i : ℕ) : ℚ :=
  100 + (i : ℚ) * (((T : ℚ) - 100) / 9)

/-- The weight `2*(1/np.sqrt(k))` attached to the member of offset `k`. -/
noncomputable def ttaWeight (k : ℚ) : ℝ :=
  2 * (1 / Real.sqrt (k : ℝ))

/-- The ordered TTA ensemble of the binary path: each member is
(shift handed to `np.roll`, weight).  Member 0 is the unperturbed image with
weight 1; then the ten positive shifts, then the ten negative shifts. -/
noncomputable def ttaMembers (T : ℕ) : List (ℤ × ℝ) :=
  ((0 : ℤ), (1 : ℝ)) ::
    ((ttaOffsets T).map (fun k => (⌊k⌋, ttaWeight k)) ++
      (ttaOffsets T).map (fun k => (-⌊k⌋, ttaWeight k)))

/-! ### C2: adaptive threshold selection (binary path)

Source (`seg_images_in_folder.py`, lines 666-673):

    if np.max(est_label)-np.min(est_label) > .5:
        thres = threshold_otsu(est_label)
        if thres>.75:
            thres = .75
    else:
        thres = .75

`threshold_otsu` is `skimage.filters.threshold_otsu` with its default 256
bins; it is modelled below following the scikit-image source: a histogram
over `[min, max]`, cumulative class weights/means from both ends, the
between-class variance at each of the `nbins - 1` candidate splits, and the
bin center of the first variance-maximising split.  A probability map is
modelled as the flattened list of its pixel values. -/

/-- Bin index of value `x` in `np.histogram(data, nbins, range=(mn, mx))`:
bin `i` covers `[mn + i·Δ, mn + (i+1)·Δ)` with the last bin closed. -/
def binIndex (mn mx : ℚ) (nbins : ℕ) (x : ℚ) : ℕ :=
  min (⌊(x - mn) / ((mx - mn) / nbins)⌋.toNat) (nbins - 1)

/-- Count of data points falling in bin `i` of the histogram. -/
def histCount (data : List ℚ) (mn mx : ℚ) (nbins : ℕ) (i : ℕ) : ℚ :=
  ((data.filter (fun x => binIndex mn mx nbins x = i)).length : ℚ)

/-- Center of bin `i`: `mn + i·Δ + Δ/2` with `Δ = (mx-mn)/nbins`. -/
def binCenter (mn mx : ℚ) (nbins : ℕ) (i : ℕ) : ℚ :=
  mn + (i : ℚ) * ((mx - mn) / nbins) + ((mx - mn) / nbins) / 2

/-- `weight1[i] = np.cumsum(counts)[i]`: total count of bins `0..i`. -/
def weight1 (data : List ℚ) (mn mx : ℚ) (nbins : ℕ) (i : ℕ) : ℚ :=
  ∑ j ∈ Finset.range (i + 1), histCount data mn mx nbins j

/-- `weight2[i]`: total count of bins `i..nbins-1`
(`np.cumsum(counts[::-1])[::-1]`). -/
def weight2 (data : List ℚ) (mn mx : ℚ) (nbins : ℕ) (i : ℕ) : ℚ :=
  ∑ j ∈ Finset.Ico i nbins, histCount data mn mx nbins j

/-- `mean1[i]`: mean bin center of the lower class `0..i`. -/
def mean1 (data : List ℚ) (mn mx : ℚ) (nbins : ℕ) (i : ℕ) : ℚ :=
  (∑ j ∈ Finset.range (i + 1),
      histCount data mn mx nbins j * binCenter mn mx nbins j) /
    weight1 data mn mx nbins i

/-- `mean2[i]`: mean bin center of the upper class `i..nbins-1`. -/
def mean2 (data : List ℚ) (mn mx : ℚ) (nbins : ℕ) (i : ℕ) : ℚ :=
  (∑ j ∈ Finset.Ico i nbins,
      histCount data mn mx nbins j * binCenter mn mx nbins j) /
    weight2 data mn mx nbins i

/-- `variance12[i] = weight1[i] * weight2[i+1] * (mean1[i] - mean2[i+1])**2`:
between-class variance when splitting after bin `i`. -/
def variance12 (data : List ℚ) (mn mx : ℚ) (nbins : ℕ) (i : ℕ) : ℚ :=
  weight1 data mn mx nbins i * weight2 data mn mx nbins (i + 1) *
    (mean1 data mn mx nbins i - mean2 data mn mx nbins (i + 1)) ^ 2

/-- `skimage.filters.threshold_otsu(data, nbins=256)`: if the image is
single-valued, return its first pixel; otherwise return the bin center of
the first split maximising the between-class variance. -/
def threshold_otsu (data : List ℚ) : ℚ :=
  if data.all (fun x => x = data.headD 0) then data.headD 0
  else
    binCenter (minQ data) (maxQ data) 256
      (argmaxIdx ((List.range 255).map
        (variance12 data (minQ data) (maxQ data) 256)))

/-- Threshold selection of the binary path: Otsu capped at 0.75 when the
probability map has dynamic range above 0.5, else the fixed default 0.75. -/
def select_threshold (m : List ℚ) : ℚ :=
  if maxQ m - minQ m > 1/2 then
    if threshold_otsu m > 3/4 then 3/4 else threshold_otsu m
  else 3/4

/-! ### C3: confidence map of the binary path

Source (`seg_images_in_folder.py`, lines 675-680):

    conf = 1-est_label
    conf[est_label<thres] = est_label[est_label<thres]
    conf = 1-conf
    conf[np.isnan(conf)] = 0
    conf[np.isinf(conf)] = 0

The three array-wise steps act pixel by pixel; the NaN/Inf coercions are
identities in exact arithmetic, where no NaN or Inf can arise. -/

/-- Step 1: `conf = 1 - est_label`. -/
def confInit {α : Type} (p : α → ℚ) : α → ℚ :=
  fun a => 1 - p a

/-- Step 2: `conf[est_label < thres] = est_label[est_label < thres]`. -/
def confMask {α : Type} (p : α → ℚ) (t : ℚ) (conf : α → ℚ) : α → ℚ :=
  fun a => if p a < t then p a else conf a

/-- Step 3: `conf = 1 - conf`. -/
def confFlip {α : Type} (conf : α → ℚ) : α → ℚ :=
  fun a => 1 - conf a

/-- The full confidence-map construction of the binary path. -/
def build_conf {α : Type} (p : α → ℚ) (t : ℚ) : α → ℚ :=
  confFlip (confMask p t (confInit p))

/-! ### C4: mask cleaner of the binary path

Source (`seg_images_in_folder.py`, lines 685-691):

    est_label[est_label<thres] = 0
    est_label[est_label>thres] = 1
    est_label = remove_small_holes(est_label.astype('uint8')*2, 2*w)
    est_label = remove_small_objects(est_label.astype('uint8')*2, 2*w)
    est_label[est_label<thres] = 0
    est_label[est_label>thres] = 1
    est_label = np.squeeze(est_label[:w,:h])

`est_label` has shape `(w, h)` at this point (it was resized to the native
size), so the final crop `[:w,:h]` is the identity and is not modelled.
`remove_small_holes` / `remove_small_objects` are the scikit-image
morphology functions with their default `connectivity=1` (4-neighbour):

* `remove_small_objects` on a *boolean* array labels its 4-connected
  components and zeroes each component whose size is `< min_size`;
* `remove_small_objects` on an *integer* array treats the values as
  already-assigned labels (`component_sizes = np.bincount(ccs.ravel())`),
  so all cells sharing a value form one pseudo-component — which is what
  the script's `.astype('uint8')*2` argument triggers;
* `remove_small_holes` complements the (boolean view of the) array, runs
  the boolean `remove_small_objects`, and complements back.

Connected components are computed by expanding a seed set along 4-neighbour
adjacency `m*n` times, which reaches the fixpoint on an `m × n` grid. -/

/-- 4-neighbour adjacency on the grid (scikit-image `connectivity=1`). -/
def adjacent {m n : ℕ} (a b : Cell m n) : Bool :=
  (a.1 = b.1 ∧ (a.2.val + 1 = b.2.val ∨ b.2.val + 1 = a.2.val)) ∨
    (a.2 = b.2 ∧ (a.1.val + 1 = b.1.val ∨ b.1.val + 1 = a.1.val))

/-- One expansion step: add every cell of the mask `p` adjacent to the set. -/
def expandStep {m n : ℕ} (p : Cell m n → Bool) (S : Finset (Cell m n)) :
    Finset (Cell m n) :=
  S ∪ Finset.univ.filter (fun b => p b ∧ ∃ a ∈ S, adjacent a b)

/-- The 4-connected component of cell `c` inside mask `p`, as reached by
`m*n` expansion steps (enough to reach the fixpoint on an `m × n` grid). -/
def comp {m n : ℕ} (p : Cell m n → Bool) (c : Cell m n) : Finset (Cell m n) :=
  (expandStep p)^[m * n] {c}

/-- `skimage.morphology.remove_small_objects` on a boolean array: keep a
foreground cell iff its 4-connected component has at least `minSize` cells. -/
def remove_small_objects_bool {m n : ℕ} (p : Cell m n → Bool) (minSize : ℕ) :
    Cell m n → Bool :=
  fun a => p a ∧ minSize ≤ (comp p a).card

/-- `skimage.morphology.remove_small_holes`: complement, remove small
boolean objects, complement back. -/
def remove_small_holes {m n : ℕ} (p : Cell m n → Bool) (area : ℕ) :
    Cell m n → Bool :=
  fun a => !(remove_small_objects_bool (fun b => !(p b)) area a)

/-- `skimage.morphology.remove_small_objects` on an integer (labeled)
array: `component_sizes = np.bincount(ccs.ravel())` counts the cells per
label value, and every cell whose label value occurs fewer than `minSize`
times is zeroed. -/
def remove_small_objects_labeled {m n : ℕ} (g : Cell m n → ℕ) (minSize : ℕ) :
    Cell m n → ℕ :=
  fun a => if (Finset.univ.filter (fun b => g b = g a)).card < minSize then 0
    else g a

/-- Cast of a nonnegative float to `uint8` (`astype('uint8')`): truncation
toward zero, reduced mod 256. -/
def toUint8 (q : ℚ) : ℕ :=
  ⌊q⌋.toNat % 256

/-- The thresholding pair of masked assignments
(`x[x<t] = 0; x[x>t] = 1`): values equal to `t` are left unchanged. -/
def binarize {α : Type} (g : α → ℚ) (t : ℚ) : α → ℚ :=
  fun a => if g a < t then 0 else if t < g a then 1 else g a

/-- The `{0,2}`-valued `uint8` array handed to `remove_small_holes`. -/
def maskU1 {m n : ℕ} (g : Cell m n → ℚ) (t : ℚ) : Cell m n → ℕ :=
  fun a => toUint8 (binarize g t a) * 2

/-- The background mask the hole-filling pass labels (complement of the
nonzero cells of `maskU1`). -/
def bgMask {m n : ℕ} (g : Cell m n → ℚ) (t : ℚ) : Cell m n → Bool :=
  fun b => maskU1 g t b = 0

/-- Boolean result of the hole-filling pass. -/
def holesOut {m n : ℕ} (g : Cell m n → ℚ) (t : ℚ) : Cell m n → Bool :=
  remove_small_holes (fun a => maskU1 g t a ≠ 0) (2 * m)

/-- The `{0,2}`-valued `uint8` array handed to `remove_small_objects`. -/
def maskU2 {m n : ℕ} (g : Cell m n → ℚ) (t : ℚ) : Cell m n → ℕ :=
  fun a => (if holesOut g t a then 1 else 0) * 2

/-- Total foreground area after the hole-filling pass: the size of the one
pseudo-component (label value 2) the object-removal pass sees. -/
def fgCount {m n : ℕ} (g : Cell m n → ℚ) (t : ℚ) : ℕ :=
  (Finset.univ.filter (fun b => holesOut g t b = true)).card

/-- Integer result of the object-removal pass. -/
def objectsOut {m n : ℕ} (g : Cell m n → ℚ) (t : ℚ) : Cell m n → ℕ :=
  remove_small_objects_labeled (maskU2 g t) (2 * m)

/-- The full mask cleaner of the binary path. -/
def clean {m n : ℕ} (g : Cell m n → ℚ) (t : ℚ) : Cell m n → ℚ :=
  binarize (fun a => (objectsOut g t a : ℚ)) t

/-! ### C5: error behaviour of the per-file prediction loop

Source (`seg_images_in_folder.py`, lines 588-731): the body of
`for counter,f in enumerate(sample_filenames):` contains no try/except
around the per-file processing (the only handlers in the script are the
`os.mkdir` guard, the overlay `imsave` fallback at lines 721-727, and the
`label_to_colors` fallback at lines 782-785).  A Python exception raised
while processing one file therefore propagates out of the `for` loop and
aborts the run.  The loop is modelled over an abstract per-file body
`step` that either produces a result or fails; failure propagates. -/

/-- The per-file loop: process files in order; an uncaught failure on any
file aborts the remainder of the loop. -/
def predictLoop {α β ε : Type} (step : α → Except ε β) :
    List α → Except ε (List β)
  | [] => .ok []
  | f :: fs =>
    match step f with
    | .error e => .error e
    | .ok r =>
      match predictLoop step fs with
      | .error e => .error e
      | .ok rs => .ok (r :: rs)

/-- The loop the specification describes (claim C5): a failing file is
skipped and processing continues with the remaining files. -/
def skipLoop {α β ε : Type} (step : α → Except ε β) (fs : List α) : List β :=
  fs.filterMap (fun f => (step f).toOption)

/-! ### C6 / C10: `rescale` and `standardize`

Source (`seg_images_in_folder.py`, lines 180-204):

    def rescale(dat, mn, mx):
        m = min(dat.flatten())
        M = max(dat.flatten())
        return (mx-mn)*(dat-m)/(M-m)+mn

    def standardize(img):
        N = np.shape(img)[0] * np.shape(img)[1]
        s = np.maximum(np.std(img), 1.0/np.sqrt(N))
        m = np.mean(img)
        img = (img - m) / s
        img = rescale(img, 0, 1)
        if np.ndim(img)!=3:
            img = np.dstack((img,img,img))
        return img

Arrays are modelled as real-valued functions on a finite index set (the
2-D image uses `Cell H W`, the 3-D image `Cell H W × Fin C`).  When
`max = min`, numpy's division by zero fills the result with NaN; `rescale`
models that outcome as `none`. -/

/-- `np.mean` over all elements. -/
noncomputable def meanI {ι : Type} [Fintype ι] (g : ι → ℝ) : ℝ :=
  (∑ i, g i) / (Fintype.card ι)

/-- `np.std` over all elements (population standard deviation). -/
noncomputable def stdI {ι : Type} [Fintype ι] (g : ι → ℝ) : ℝ :=
  Real.sqrt ((∑ i, (g i - meanI g) ^ 2) / (Fintype.card ι))

/-- `min(dat.flatten())`; junk value `0` on an empty index set. -/
noncomputable def minI {ι : Type} [Fintype ι] (g : ι → ℝ) : ℝ :=
  if h : (Finset.univ : Finset ι).Nonempty then Finset.univ.inf' h g else 0

/-- `max(dat.flatten())`; junk value `0` on an empty index set. -/
noncomputable def maxI {ι : Type} [Fintype ι] (g : ι → ℝ) : ℝ :=
  if h : (Finset.univ : Finset ι).Nonempty then Finset.univ.sup' h g else 0

/-- `rescale(dat, mn, mx) = (mx-mn)*(dat-m)/(M-m)+mn`; when `M = m` the
division by zero floods the array with NaN, modelled as `none`. -/
noncomputable def rescale {ι : Type} [Fintype ι] (g : ι → ℝ) (mn mx : ℝ) :
    Option (ι → ℝ) :=
  if maxI g = minI g then none
  else some (fun i => (mx - mn) * (g i - minI g) / (maxI g - minI g) + mn)

/-- The mean/adjusted-std normalization step of `standardize`:
`(img - mean) / max(std, 1/sqrt(N))`, with `N` the pixel count of the
first two dimensions (passed explicitly, since for a 3-D image it differs
from the element count). -/
noncomputable def normalizedPart {ι : Type} [Fintype ι] (N : ℕ) (g : ι → ℝ) :
    ι → ℝ :=
  fun i => (g i - meanI g) / max (stdI g) (1 / Real.sqrt N)

/-- `standardize` up to (but excluding) the channel replication. -/
noncomputable def standardizeCore {ι : Type} [Fintype ι] (N : ℕ) (g : ι → ℝ) :
    Option (ι → ℝ) :=
  rescale (normalizedPart N g) 0 1

/-- `standardize` on a single-channel (2-D) image: the result is replicated
into 3 identical channels by `np.dstack((img,img,img))`. -/
noncomputable def standardize2D {H W : ℕ} (g : Cell H W → ℝ) :
    Option (Cell H W → Fin 3 → ℝ) :=
  (standardizeCore (H * W) g).map (fun r => fun a _ => r a)

/-- `standardize` on a 3-D image: `N` is still the pixel count of the first
two dimensions; the shape is kept. -/
noncomputable def standardize3D {H W C : ℕ} (g : Cell H W × Fin C → ℝ) :
    Option (Cell H W × Fin C → ℝ) :=
  standardizeCore (H * W) g

/-! ### C7: ensemble combination

Source (`seg_images_in_folder.py`, lines 643-646):

    E = [resize(e,(w,h)) for e in E]
    est_label = np.average(np.dstack(E), axis=-1, weights=np.array(W))

`np.average` along the stacking axis is, per pixel, the weighted sum of
the member values divided by the sum of the weights. -/

/-- `np.average(np.dstack(E), axis=-1, weights=W)` on a list of (already
resized) member maps. -/
def np_average {α : Type} (E : List (α → ℚ)) (Wt : List ℚ) : α → ℚ :=
  fun a => (((E.zip Wt).map (fun p => p.2 * p.1 a)).sum) / Wt.sum

/-- The per-pixel weighted mean the specification describes. -/
def weightedMean {α : Type} (E : List (α → ℚ)) (Wt : List ℚ) : α → ℚ :=
  fun a => (((E.map (fun e => e a)).zip Wt).map (fun p => p.1 * p.2)).sum / Wt.sum

/-! ### C8: the multiclass path

Source (`seg_images_in_folder.py`, lines 766-778):

    est_label = model.predict(tf.expand_dims(image, 0), batch_size=1).squeeze()
    E = [maximum_filter(est_label[:,:,k], int(w/2/NCLASSES)) for k in range(NCLASSES)]
    est_label = np.dstack(E)
    est_label = resize(est_label,(w,h))
    conf = np.max(est_label, -1)
    conf[np.isnan(conf)] = 0
    conf[np.isinf(conf)] = 0
    est_label = np.argmax(est_label,-1)
    est_label = np.squeeze(est_label[:w,:h])

`scipy.ndimage.maximum_filter` slides a `size × size` window with the
default `mode='reflect'` boundary; `skimage.transform.resize` to `(w,h)`
acts on the two spatial axes independently per channel and is abstracted
as a per-channel map `R`.  The NaN/Inf coercions are identities in exact
arithmetic. -/

/-- Boundary index reflection of scipy's `mode='reflect'`
(`(d c b a | a b c d | d c b a)`). -/
def reflectIdx (m : ℕ) (i : ℤ) : ℕ :=
  let r := (i % (2 * (m : ℤ))).toNat
  if r < m then r else 2 * m - 1 - r

/-- The cells of the `size × size` window centred (origin 0) at `a`,
after boundary reflection. -/
def windowCells {m n : ℕ} (size : ℕ) (a : Cell m n) (hm : 0 < m) (hn : 0 < n) :
    List (Cell m n) :=
  ((List.range size).product (List.range size)).map (fun d =>
    (⟨reflectIdx m ((a.1.val : ℤ) + d.1 - (size / 2 : ℕ)) % m, Nat.mod_lt _ hm⟩,
     ⟨reflectIdx n ((a.2.val : ℤ) + d.2 - (size / 2 : ℕ)) % n, Nat.mod_lt _ hn⟩))

/-- `scipy.ndimage.maximum_filter(g, size)` with `mode='reflect'`. -/
def maximum_filter {m n : ℕ} (g : Cell m n → ℚ) (size : ℕ) (hm : 0 < m)
    (hn : 0 < n) : Cell m n → ℚ :=
  fun a => maxQ ((windowCells size a hm hn).map g)

/-- `int(w/2/NCLASSES)`: Python float division then truncation. -/
def mcKernel (w K : ℕ) : ℕ :=
  ⌊((w : ℚ) / 2) / (K : ℚ)⌋.toNat

/-- Values of a `Fin K`-indexed family as a list (the class axis). -/
def finList {K : ℕ} (f : Fin K → ℚ) : List ℚ :=
  (List.finRange K).map f

/-- Per-class max-filtered maps `E` of the multiclass path. -/
def mcFiltered {m n K : ℕ} (pred : Cell m n → Fin K → ℚ) (size : ℕ)
    (hm : 0 < m) (hn : 0 < n) : Fin K → Cell m n → ℚ :=
  fun k => maximum_filter (fun a => pred a k) size hm hn

/-- The filtered maps after the per-channel resize `R` to native size. -/
def mcResized {m n w h K : ℕ} (pred : Cell m n → Fin K → ℚ)
    (R : (Cell m n → ℚ) → Cell w h → ℚ) (size : ℕ) (hm : 0 < m) (hn : 0 < n) :
    Cell w h → Fin K → ℚ :=
  fun b k => R (mcFiltered pred size hm hn k) b

/-- `conf = np.max(est_label, -1)` of the multiclass path. -/
def mcConf {m n w h K : ℕ} (pred : Cell m n → Fin K → ℚ)
    (R : (Cell m n → ℚ) → Cell w h → ℚ) (size : ℕ) (hm : 0 < m) (hn : 0 < n) :
    Cell w h → ℚ :=
  fun b => maxQ (finList (mcResized pred R size hm hn b))

/-- `est_label = np.argmax(est_label, -1)` of the multiclass path. -/
def mcLabel {m n w h K : ℕ} (pred : Cell m n → Fin K → ℚ)
    (R : (Cell m n → ℚ) → Cell w h → ℚ) (size : ℕ) (hm : 0 < m) (hn : 0 < n) :
    Cell w h → ℕ :=
  fun b => argmaxIdx (finList (mcResized pred R size hm hn b))

/-- The multiclass path after the forward pass: per-class max filter with
kernel `int(w/2/NCLASSES)`, per-channel resize, then per-pixel argmax
(label map) and max (confidence map). -/
def multiclassPredict {m n w h K : ℕ} (pred : Cell m n → Fin K → ℚ)
    (R : (Cell m n → ℚ) → Cell w h → ℚ) (wNative : ℕ) (hm : 0 < m)
    (hn : 0 < n) : (Cell w h → ℕ) × (Cell w h → ℚ) :=
  (mcLabel pred R (mcKernel wNative K) hm hn,
   mcConf pred R (mcKernel wNative K) hm hn)

/-! ### C9: artifacts written per processed image

Source (`seg_images_in_folder.py`): binary path lines 650-727, multiclass
path lines 791-810.  Every write is recorded with its output subdirectory,
file suffix, whether the array is cast to half precision
(`astype(np.float16)`), and whether the container compresses
(`np.savez` writes an *uncompressed* zip archive;
`np.savez_compressed` — not used here — would compress). -/

/-- One file written for a processed image. -/
structure Artifact where
  subdir : String
  suffix : String
  float16 : Bool
  compressed : Bool
  deriving DecidableEq, Repr

/-- The files the binary path (`NCLASSES==1`) writes for a processed image,
in program order. -/
def binaryArtifacts : List Artifact :=
  [⟨"probs", "_prob.npz", true, false⟩,
   ⟨"probs", "_prob.tif", false, false⟩,
   ⟨"masks", "_predseg.png", false, false⟩,
   ⟨"conf_var", "_conf.npz", true, false⟩,
   ⟨"conf_var", "_var.npz", true, false⟩,
   ⟨"masked", "_segoverlay.tif", false, false⟩]

/-- The files the multiclass path (`NCLASSES>1`) writes for a processed
image, in program order. -/
def multiclassArtifacts : List Artifact :=
  [⟨"masks", "_predseg.png", false, false⟩,
   ⟨"conf_var", "_conf.npz", true, false⟩,
   ⟨"masked", "_predseg_col.png", false, false⟩]

/-! ## Helper lemmas -/

theorem minQ_mem : ∀ (l : List ℚ), l ≠ [] → minQ l ∈ l
  | [x], _ => by simp [minQ]
  | x :: y :: t, _ => by
    rcases min_cases x (minQ (y :: t)) with h | h
    · simp [minQ, h.1]
    · have := minQ_mem (y :: t) (by simp)
      simp only [minQ, h.1]
      exact List.mem_cons_of_mem _ this

theorem minQ_le : ∀ (l : List ℚ) (x : ℚ), x ∈ l → minQ l ≤ x
  | [x], z, hz => by simp_all [minQ]
  | x :: y :: t, z, hz => by
    rcases List.mem_cons.1 hz with rfl | hz
    · exact min_le_left _ _
    · exact le_trans (min_le_right _ _) (minQ_le (y :: t) z hz)

theorem maxQ_mem : ∀ (l : List ℚ), l ≠ [] → maxQ l ∈ l
  | [x], _ => by simp [maxQ]
  | x :: y :: t, _ => by
    rcases max_cases x (maxQ (y :: t)) with h | h
    · simp [maxQ, h.1]
    · have := maxQ_mem (y :: t) (by simp)
      simp only [maxQ, h.1]
      exact List.mem_cons_of_mem _ this

theorem le_maxQ : ∀ (l : List ℚ) (x : ℚ), x ∈ l → x ≤ maxQ l
  | [x], z, hz => by simp_all [maxQ]
  | x :: y :: t, z, hz => by
    rcases List.mem_cons.1 hz with rfl | hz
    · exact le_max_left _ _
    · exact le_trans (le_maxQ (y :: t) z hz) (le_max_right _ _)

theorem argmaxIdx_lt : ∀ (l : List ℚ), l ≠ [] → argmaxIdx l < l.length
  | [x], _ => by simp [argmaxIdx]
  | x :: y :: t, _ => by
    have := argmaxIdx_lt (y :: t) (by simp)
    simp only [argmaxIdx]
    split
    · simpa using Nat.succ_lt_succ this
    · simp

theorem argmaxIdx_getD : ∀ (l : List ℚ), l ≠ [] →
    l.getD (argmaxIdx l) 0 = maxQ l
  | [x], _ => by simp [argmaxIdx, maxQ]
  | x :: y :: t, _ => by
    have ih := argmaxIdx_getD (y :: t) (by simp)
    simp only [argmaxIdx]
    split
    · next h =>
      rw [List.getD_cons_succ, ih, maxQ]
      rw [ih] at h
      exact (max_eq_right (le_of_lt h)).symm
    · next h =>
      rw [ih] at h
      rw [List.getD_cons_zero]
      rw [maxQ]
      exact (max_eq_left (not_lt.1 h)).symm

/-- Every offset of the TTA shift schedule is at least 100 (when the
target size is at least 100). -/
theorem ttaOffsets_ge (T : ℕ) (hT : 100 ≤ T) :
    ∀ k ∈ ttaOffsets T, 100 ≤ k := by
  intro k hk
  simp only [ttaOffsets, linspace, List.mem_map, List.mem_range] at hk
  obtain ⟨i, _, rfl⟩ := hk
  have hT' : (100 : ℚ) ≤ (T : ℚ) := by exact_mod_cast hT
  have : (0 : ℚ) ≤ (i : ℚ) * (((T : ℚ) - 100) / ((10 - 1 : ℕ) : ℚ)) := by
    apply mul_nonneg (Nat.cast_nonneg i)
    apply div_nonneg (by linarith) (by norm_num)
  linarith

theorem ttaWeight_anti {k1 k2 : ℚ} (h1 : 0 < k1) (h12 : k1 < k2) :
    ttaWeight k2 < ttaWeight k1 := by
  unfold ttaWeight
  have hs1 : (0 : ℝ) < Real.sqrt (k1 : ℝ) :=
    Real.sqrt_pos.2 (by exact_mod_cast h1)
  have hs : Real.sqrt (k1 : ℝ) < Real.sqrt (k2 : ℝ) :=
    Real.sqrt_lt_sqrt (by exact_mod_cast h1.le) (by exact_mod_cast h12)
  have := one_div_lt_one_div_of_lt hs1 hs
  linarith

theorem ttaWeight_lt_one {k : ℚ} (hk : 100 ≤ k) : ttaWeight k < 1 := by
  unfold ttaWeight
  have h10 : Real.sqrt 100 = 10 := by
    rw [show (100 : ℝ) = 10 ^ 2 by norm_num,
      Real.sqrt_sq (by norm_num : (0 : ℝ) ≤ 10)]
  have hk' : (100 : ℝ) ≤ (k : ℝ) := by exact_mod_cast hk
  have hs : (10 : ℝ) ≤ Real.sqrt (k : ℝ) := by
    calc (10 : ℝ) = Real.sqrt 100 := h10.symm
    _ ≤ Real.sqrt (k : ℝ) := Real.sqrt_le_sqrt hk'
  have hspos : (0 : ℝ) < Real.sqrt (k : ℝ) := by linarith
  have := one_div_le_one_div_of_le (by norm_num : (0:ℝ) < 10) hs
  linarith

/-! ## Claim theorems -/

/-- Claim C1 (confirmed, for target sizes of at least 100): the binary-path
TTA ensemble has exactly 21 ordered members; member 0 is the unperturbed
image with weight 1; members 1-10 shift by the 10 evenly spaced schedule
offsets from 100 to `TARGET_SIZE[0]` inclusive (truncated to an integer
pixel shift by Python `int()`) with weight `2/sqrt(offset)`; members 11-20
use the same offsets with the opposite shift direction and the same
weights; the weight is strictly decreasing in the offset, and every
shifted member's weight is below the unshifted member's weight 1. -/
theorem C1_tta_schedule (T : ℕ) (hT : 100 ≤ T) :
    (ttaMembers T).length = 21 ∧
    (ttaMembers T)[0]? = some (0, 1) ∧
    (∀ i : ℕ, i < 10 →
      (ttaMembers T)[i + 1]? = some (⌊ttaOff T i⌋, ttaWeight (ttaOff T i)) ∧
      (ttaMembers T)[i + 11]? = some (-⌊ttaOff T i⌋, ttaWeight (ttaOff T i))) ∧
    (∀ k1 ∈ ttaOffsets T, ∀ k2 ∈ ttaOffsets T, k1 < k2 →
      ttaWeight k2 < ttaWeight k1) ∧
    (∀ k ∈ ttaOffsets T, ttaWeight k < 1) := by
  have hoff : ∀ i : ℕ, i < 10 → (ttaOffsets T)[i]? = some (ttaOff T i) := by
    intro i hi
    unfold ttaOffsets linspace
    rw [List.getElem?_map, List.getElem?_range hi, Option.map_some']
    norm_num [ttaOff]
  have hlen : (ttaOffsets T).length = 10 := by
    unfold ttaOffsets linspace
    rw [List.length_map, List.length_range]
  refine ⟨?_, ?_, ?_, ?_, ?_⟩
  · unfold ttaMembers
    rw [List.length_cons, List.length_append, List.length_map, List.length_map,
      hlen]
  · rfl
  · intro i hi
    constructor
    · unfold ttaMembers
      rw [List.getElem?_cons_succ,
        List.getElem?_append_left (by rw [List.length_map, hlen]; omega),
        List.getElem?_map, hoff i hi, Option.map_some']
    · show ((((0 : ℤ), (1 : ℝ)) ::
        ((ttaOffsets T).map (fun k => (⌊k⌋, ttaWeight k)) ++
          (ttaOffsets T).map (fun k => (-⌊k⌋, ttaWeight k)))))[(i + 10) + 1]? = _
      rw [List.getElem?_cons_succ,
        List.getElem?_append_right (by rw [List.length_map, hlen]; omega),
        List.length_map, hlen, Nat.add_sub_cancel, List.getElem?_map,
        hoff i hi, Option.map_some']
  · intro k1 hk1 k2 hk2 h12
    exact ttaWeight_anti (lt_of_lt_of_le (by norm_num) (ttaOffsets_ge T hT k1 hk1)) h12
  · intro k hk
    exact ttaWeight_lt_one (ttaOffsets_ge T hT k hk)

/-- Witness for C1 at the concrete target size 512. -/
theorem C1_tta_schedule_witness :
    (ttaMembers 512).length = 21 ∧ (∀ k ∈ ttaOffsets 512, ttaWeight k < 1) :=
  ⟨(C1_tta_schedule 512 (by decide)).1,
   (C1_tta_schedule 512 (by decide)).2.2.2.2⟩

/-- In the Otsu branch the probability map cannot be single-valued, and
the returned bin center is strictly positive. -/
theorem threshold_otsu_pos (m : List ℚ) (hne : m ≠ []) (hmn : 0 ≤ minQ m)
    (hr : 1/2 < maxQ m - minQ m) : 0 < threshold_otsu m := by
  have hall : ¬ (m.all (fun x => decide (x = m.headD 0)) = true) := by
    intro h
    rw [List.all_eq_true] at h
    have h1 := h _ (minQ_mem m hne)
    have h2 := h _ (maxQ_mem m hne)
    rw [decide_eq_true_eq] at h1 h2
    rw [h1, h2] at hr
    norm_num at hr
  unfold threshold_otsu
  rw [if_neg hall]
  unfold binCenter
  have hd : (0 : ℚ) < (maxQ m - minQ m) / 256 := by
    apply div_pos (by linarith) (by norm_num)
  have hterm : (0 : ℚ) ≤
      ((argmaxIdx ((List.range 255).map
        (variance12 m (minQ m) (maxQ m) 256)) : ℕ) : ℚ) *
        ((maxQ m - minQ m) / 256) :=
    mul_nonneg (Nat.cast_nonneg _) hd.le
  linarith

/-- Claim C2 (confirmed): `select_threshold` returns the Otsu threshold
capped at 0.75 when the map's dynamic range exceeds 0.5, and the fixed
default 0.75 otherwise; on probability maps (values in [0,1]) the result
always lies in (0, 0.75]. -/
theorem C2_select_threshold (m : List ℚ) (hne : m ≠ [])
    (h01 : ∀ x ∈ m, 0 ≤ x ∧ x ≤ 1) :
    select_threshold m =
      (if maxQ m - minQ m > 1/2 then min (threshold_otsu m) (3/4)
       else 3/4) ∧
    0 < select_threshold m ∧ select_threshold m ≤ 3/4 := by
  have hmn : 0 ≤ minQ m := (h01 _ (minQ_mem m hne)).1
  by_cases hr : maxQ m - minQ m > 1/2
  · have hpos := threshold_otsu_pos m hne hmn hr
    have hsel : select_threshold m =
        if threshold_otsu m > 3/4 then 3/4 else threshold_otsu m := by
      unfold select_threshold
      rw [if_pos hr]
    rw [hsel, if_pos hr]
    by_cases hcap : threshold_otsu m > 3/4
    · rw [if_pos hcap]
      exact ⟨(min_eq_right hcap.le).symm, by norm_num, by norm_num⟩
    · rw [if_neg hcap]
      exact ⟨(min_eq_left (not_lt.1 hcap)).symm, hpos, not_lt.1 hcap⟩
  · have hsel : select_threshold m = 3/4 := by
      unfold select_threshold
      rw [if_neg hr]
    rw [hsel, if_neg hr]
    norm_num

/-- Witness for C2 on the two-pixel probability map `[0, 1]`. -/
theorem C2_select_threshold_witness :
    0 < select_threshold [0, 1] ∧ select_threshold [0, 1] ≤ 3/4 :=
  ⟨(C2_select_threshold [0, 1] (by decide) (by decide)).2.1,
   (C2_select_threshold [0, 1] (by decide) (by decide)).2.2⟩

/-- Claim C3 counterexample: at a pixel with probability 1/5 below the
threshold 3/4 the confidence is 4/5, not the probability 1/5 the claim
states for below-threshold pixels. -/
theorem C3_conf_counterexample :
    build_conf (fun _ : Unit => (1 : ℚ)/5) (3/4) () = 4/5 ∧
    ((4 : ℚ)/5 ≠ 1/5) := by
  constructor
  · unfold build_conf confFlip confMask confInit
    norm_num
  · norm_num

/-- Claim C3 as amended: the confidence equals the probability where the
probability is at or above the threshold, and equals one minus the
probability where it is below; for probabilities in [0,1] the confidence
lies in [0,1].  (NaN/Inf cannot arise in exact arithmetic; the code's
coercions of them to 0 are identities here.) -/
theorem C3_conf_amended {α : Type} (p : α → ℚ) (t : ℚ) (a : α)
    (h0 : 0 ≤ p a) (h1 : p a ≤ 1) :
    (t ≤ p a → build_conf p t a = p a) ∧
    (p a < t → build_conf p t a = 1 - p a) ∧
    0 ≤ build_conf p t a ∧ build_conf p t a ≤ 1 := by
  unfold build_conf confFlip confMask confInit
  by_cases h : p a < t
  · rw [if_pos h]
    exact ⟨fun ht => absurd h (not_lt.2 ht), fun _ => rfl,
      by linarith, by linarith⟩
  · rw [if_neg h]
    refine ⟨fun _ => by ring, fun hlt => absurd hlt h, by linarith, by linarith⟩

/-- Witness for the amended C3 at probability 1/2 and threshold 1/4. -/
theorem C3_conf_amended_witness :
    build_conf (fun _ : Unit => (1 : ℚ)/2) (1/4) () = 1/2 :=
  (C3_conf_amended (fun _ : Unit => (1 : ℚ)/2) (1/4) ()
    (by norm_num) (by norm_num)).1 (by norm_num)

/-- A foreground cell of `maskU1` survives the hole-filling pass. -/
theorem holesOut_fg {m n : ℕ} (g : Cell m n → ℚ) (t : ℚ) (a : Cell m n)
    (h : maskU1 g t a ≠ 0) : holesOut g t a = true := by
  simp [holesOut, remove_small_holes, remove_small_objects_bool, h]

/-- On a background cell the hole-filling pass is decided by the size of
its background component. -/
theorem holesOut_bg {m n : ℕ} (g : Cell m n → ℚ) (t : ℚ) (a : Cell m n)
    (h : maskU1 g t a = 0) :
    holesOut g t a = !(decide (2 * m ≤ (comp (bgMask g t) a).card)) := by
  have hee : bgMask g t = fun b => decide (maskU1 g t b = 0) := rfl
  simp [holesOut, remove_small_holes, remove_small_objects_bool, hee, h]

/-- The `{0,2}` shape of the array handed to the object-removal pass. -/
theorem maskU2_cases {m n : ℕ} (g : Cell m n → ℚ) (t : ℚ) (a : Cell m n) :
    maskU2 g t a = (if holesOut g t a then 2 else 0) := by
  unfold maskU2
  split <;> rfl

/-- The cells of label value 2 seen by the object-removal pass are exactly
the post-hole-filling foreground cells. -/
theorem filter_maskU2_two {m n : ℕ} (g : Cell m n → ℚ) (t : ℚ) :
    (Finset.univ.filter (fun b => maskU2 g t b = 2)).card = fgCount g t := by
  unfold fgCount
  congr 1
  apply Finset.filter_congr
  intro b _
  rw [maskU2_cases]
  by_cases hb : holesOut g t b <;> simp [hb]

/-- When the total foreground is below the floor, the labeled
`remove_small_objects` erases the whole mask. -/
theorem objectsOut_small {m n : ℕ} (g : Cell m n → ℚ) (t : ℚ)
    (h : fgCount g t < 2 * m) (a : Cell m n) : objectsOut g t a = 0 := by
  unfold objectsOut remove_small_objects_labeled
  by_cases hb : holesOut g t a
  · have h2 : maskU2 g t a = 2 := by rw [maskU2_cases, if_pos hb]
    rw [h2, filter_maskU2_two, if_pos h]
  · have h0 : maskU2 g t a = 0 := by rw [maskU2_cases, if_neg hb]
    rw [h0]
    split <;> rfl

/-- When the total foreground reaches the floor, the labeled
`remove_small_objects` is the identity. -/
theorem objectsOut_large {m n : ℕ} (g : Cell m n → ℚ) (t : ℚ)
    (h : 2 * m ≤ fgCount g t) (a : Cell m n) :
    objectsOut g t a = maskU2 g t a := by
  unfold objectsOut remove_small_objects_labeled
  by_cases hb : holesOut g t a
  · have h2 : maskU2 g t a = 2 := by rw [maskU2_cases, if_pos hb]
    rw [h2, filter_maskU2_two, if_neg (Nat.not_lt.2 h)]
  · have h0 : maskU2 g t a = 0 := by rw [maskU2_cases, if_neg hb]
    rw [h0]
    split <;> rfl

/-- The object-removal pass only outputs 0 or 2. -/
theorem objectsOut_mem {m n : ℕ} (g : Cell m n → ℚ) (t : ℚ) (a : Cell m n) :
    objectsOut g t a = 0 ∨ objectsOut g t a = 2 := by
  unfold objectsOut remove_small_objects_labeled
  split
  · exact Or.inl rfl
  · rw [maskU2_cases]
    by_cases hb : holesOut g t a
    · rw [if_pos hb]
      exact Or.inr rfl
    · rw [if_neg hb]
      exact Or.inl rfl

/-- The final re-threshold maps the `{0,2}` array to a `{0,1}` mask. -/
theorem clean_binary {m n : ℕ} (g : Cell m n → ℚ) (t : ℚ) (ht0 : 0 < t)
    (ht2 : t < 2) (a : Cell m n) : clean g t a = 0 ∨ clean g t a = 1 := by
  rcases objectsOut_mem g t a with h | h
  · left
    simp only [clean, binarize, h, Nat.cast_zero]
    rw [if_pos ht0]
  · right
    simp only [clean, binarize, h, Nat.cast_ofNat]
    rw [if_neg (by linarith), if_pos ht2]

/-- Claim C4 as amended: the binarize step sends pixels strictly below the
threshold to 0 and strictly above to 1, while pixels exactly at the
threshold keep their value (and are then truncated to 0 by the `uint8`
cast); the hole-filling pass fills background regions smaller than
`2*width` and keeps larger ones; the object-removal pass receives a
`{0,2}`-valued labeled array, so it erases the entire foreground iff the
*total* foreground area is below `2*width` and otherwise removes nothing
(no per-component removal); the final mask contains only values in
`{0,1}`. -/
theorem C4_clean_amended {m n : ℕ} (g : Cell m n → ℚ) (t : ℚ)
    (ht0 : 0 < t) (ht1 : t ≤ 3/4) :
    (∀ a, (g a < t → binarize g t a = 0) ∧ (t < g a → binarize g t a = 1) ∧
      (g a = t → binarize g t a = t)) ∧
    (∀ a, maskU1 g t a ≠ 0 → holesOut g t a = true) ∧
    (∀ a, maskU1 g t a = 0 →
      ((comp (bgMask g t) a).card < 2 * m → holesOut g t a = true) ∧
      (2 * m ≤ (comp (bgMask g t) a).card → holesOut g t a = false)) ∧
    ((fgCount g t < 2 * m → ∀ a, objectsOut g t a = 0) ∧
      (2 * m ≤ fgCount g t → ∀ a, objectsOut g t a = maskU2 g t a)) ∧
    (∀ a, clean g t a = 0 ∨ clean g t a = 1) := by
  refine ⟨?_, fun a h => holesOut_fg g t a h, ?_, ⟨fun h a => objectsOut_small g t h a, fun h a => objectsOut_large g t h a⟩, fun a => clean_binary g t ht0 (by linarith) a⟩
  · intro a
    simp only [binarize]
    refine ⟨fun h => by rw [if_pos h], fun h => ?_, fun h => ?_⟩
    · rw [if_neg (by linarith), if_pos h]
    · rw [if_neg (by simp [h]), if_neg (by simp [h])]
      exact h
  · intro a h
    rw [holesOut_bg g t a h]
    constructor
    · intro hc
      simp [Nat.not_le.2 hc]
    · intro hc
      simp [hc]

/-- Witness for the amended C4 on a 1×1 zero map with threshold 1/2. -/
theorem C4_clean_amended_witness :
    clean (fun _ : Cell 1 1 => (0 : ℚ)) (1/2) ((0 : Fin 1), (0 : Fin 1)) = 0 ∨
      clean (fun _ : Cell 1 1 => (0 : ℚ)) (1/2) ((0 : Fin 1), (0 : Fin 1)) = 1 :=
  (C4_clean_amended (fun _ : Cell 1 1 => (0 : ℚ)) (1/2)
    (by norm_num) (by norm_num)).2.2.2.2 ((0 : Fin 1), (0 : Fin 1))

/-- Claim C4 counterexample: on a 5×1 all-ones probability map with
threshold 3/4 (width 5, size floor `2*5 = 10`), the cleaner outputs the
all-zero mask, whose background is a single connected region of size
5 < 10 — so a region smaller than the size floor survives, contradicting
the claimed guarantee (the whole above-threshold foreground was erased
because its total area is below the floor). -/
theorem C4_clean_counterexample :
    (∀ a : Cell 5 1, clean (fun _ : Cell 5 1 => (1 : ℚ)) (3/4) a = 0) ∧
    (comp (fun b : Cell 5 1 =>
        decide (clean (fun _ : Cell 5 1 => (1 : ℚ)) (3/4) b = 0))
      ((0 : Fin 5), (0 : Fin 1))).card = 5 ∧
    5 < 2 * 5 := by
  have hb : ∀ a : Cell 5 1, binarize (fun _ : Cell 5 1 => (1 : ℚ)) (3/4) a = 1 := by
    intro a
    simp only [binarize]
    rw [if_neg (by norm_num), if_pos (by norm_num)]
  have hm1 : ∀ a : Cell 5 1, maskU1 (fun _ : Cell 5 1 => (1 : ℚ)) (3/4) a = 2 := by
    intro a
    simp only [maskU1, hb a, toUint8]
    norm_num
  have hh : ∀ a : Cell 5 1, holesOut (fun _ : Cell 5 1 => (1 : ℚ)) (3/4) a = true := by
    intro a
    exact holesOut_fg _ _ a (by rw [hm1 a]; decide)
  have hfg : fgCount (fun _ : Cell 5 1 => (1 : ℚ)) (3/4) = 5 := by
    unfold fgCount
    rw [Finset.filter_true_of_mem (fun x _ => hh x)]
    decide
  have ho : ∀ a : Cell 5 1, objectsOut (fun _ : Cell 5 1 => (1 : ℚ)) (3/4) a = 0 :=
    objectsOut_small _ _ (by rw [hfg]; decide)
  have hc : ∀ a : Cell 5 1, clean (fun _ : Cell 5 1 => (1 : ℚ)) (3/4) a = 0 := by
    intro a
    simp only [clean, binarize, ho a, Nat.cast_zero]
    rw [if_pos (by norm_num)]
  have hpred : (fun b : Cell 5 1 =>
      decide (clean (fun _ : Cell 5 1 => (1 : ℚ)) (3/4) b = 0)) =
      (fun _ : Cell 5 1 => true) := by
    funext b
    simp [hc b]
  refine ⟨hc, ?_, by decide⟩
  rw [hpred]
  decide

/-- Claim C5 counterexample: with two files where the first fails, the
loop returns the failure (aborting the run) instead of the skip-and-go-on
result `[1]` the claim describes. -/
theorem C5_loop_counterexample :
    predictLoop (fun n : ℕ => if n = 0 then Except.error 0 else Except.ok n)
      [0, 1] = Except.error 0 ∧
    predictLoop (fun n : ℕ => if n = 0 then Except.error 0 else Except.ok n)
      [0, 1] ≠ Except.ok (skipLoop
        (fun n : ℕ => if n = 0 then Except.error 0 else Except.ok n) [0, 1]) :=
  ⟨rfl, fun h => Except.noConfusion h⟩

/-- Claim C5 as amended: there is no file-level handler — the first
per-file failure propagates and aborts the whole directory run, whatever
files remain after it. -/
theorem C5_loop_amended {α β ε : Type} (step : α → Except ε β)
    (fs1 fs2 : List α) (f : α) (e : ε)
    (h1 : ∀ g ∈ fs1, ∃ r, step g = Except.ok r)
    (h2 : step f = Except.error e) :
    predictLoop step (fs1 ++ f :: fs2) = Except.error e := by
  induction fs1 with
  | nil => simp [predictLoop, h2]
  | cons g gs ih =>
    obtain ⟨r, hr⟩ := h1 g (List.mem_cons_self g gs)
    have ih' := ih (fun x hx => h1 x (List.mem_cons_of_mem _ hx))
    simp [predictLoop, hr, ih']

/-- Witness for the amended C5: file 1 succeeds, file 0 fails, file 2 is
never reached; the run aborts with the failure. -/
theorem C5_loop_amended_witness :
    predictLoop (fun n : ℕ => if n = 0 then Except.error 0 else Except.ok n)
      [1, 0, 2] = Except.error 0 :=
  C5_loop_amended (fun n : ℕ => if n = 0 then Except.error 0 else Except.ok n)
    [1] [2] 0 0
    (fun g hg => by
      rw [List.mem_singleton] at hg
      subst hg
      exact ⟨1, rfl⟩)
    rfl

theorem minI_le {ι : Type} [Fintype ι] [Nonempty ι] (g : ι → ℝ) (i : ι) :
    minI g ≤ g i := by
  unfold minI
  rw [dif_pos Finset.univ_nonempty]
  exact Finset.inf'_le g (Finset.mem_univ i)

theorem le_maxI {ι : Type} [Fintype ι] [Nonempty ι] (g : ι → ℝ) (i : ι) :
    g i ≤ maxI g := by
  unfold maxI
  rw [dif_pos Finset.univ_nonempty]
  exact Finset.le_sup' g (Finset.mem_univ i)

theorem exists_eq_minI {ι : Type} [Fintype ι] [Nonempty ι] (g : ι → ℝ) :
    ∃ i, g i = minI g := by
  unfold minI
  rw [dif_pos Finset.univ_nonempty]
  obtain ⟨i, _, hi⟩ := Finset.exists_mem_eq_inf' Finset.univ_nonempty g
  exact ⟨i, hi.symm⟩

theorem exists_eq_maxI {ι : Type} [Fintype ι] [Nonempty ι] (g : ι → ℝ) :
    ∃ i, g i = maxI g := by
  unfold maxI
  rw [dif_pos Finset.univ_nonempty]
  obtain ⟨i, _, hi⟩ := Finset.exists_mem_eq_sup' Finset.univ_nonempty g
  exact ⟨i, hi.symm⟩

theorem minI_lt_maxI {ι : Type} [Fintype ι] [Nonempty ι] (g : ι → ℝ)
    (h : ∃ a b, g a ≠ g b) : minI g < maxI g := by
  obtain ⟨a, b, hab⟩ := h
  have h1 := minI_le g a
  have h2 := minI_le g b
  have h3 := le_maxI g a
  have h4 := le_maxI g b
  rcases hab.lt_or_lt with h | h <;> linarith

/-- The adjusted scale `max(std, 1/sqrt(N))` is strictly positive: this is
exactly the division-by-zero guard of `standardize`. -/
theorem sAdj_pos {ι : Type} [Fintype ι] (N : ℕ) (hN : 0 < N) (g : ι → ℝ) :
    0 < max (stdI g) (1 / Real.sqrt N) := by
  have : (0 : ℝ) < 1 / Real.sqrt N := by
    apply div_pos one_pos
    exact Real.sqrt_pos.2 (by exact_mod_cast hN)
  exact lt_of_lt_of_le this (le_max_right _ _)

theorem normalizedPart_ne {ι : Type} [Fintype ι] (N : ℕ) (hN : 0 < N)
    (g : ι → ℝ) {a b : ι} (hab : g a ≠ g b) :
    normalizedPart N g a ≠ normalizedPart N g b := by
  have hs := sAdj_pos N hN g
  unfold normalizedPart
  intro heq
  apply hab
  have h1 := div_mul_cancel₀ (g a - meanI g) hs.ne'
  have h2 := div_mul_cancel₀ (g b - meanI g) hs.ne'
  have : (g a - meanI g) = (g b - meanI g) := by
    rw [← h1, ← h2, heq]
  linarith

/-- Evaluation of `standardizeCore` on a non-constant image: the rescale
succeeds and produces the affine map sending the minimum to 0 and the
maximum to 1. -/
theorem standardizeCore_some {ι : Type} [Fintype ι] (N : ℕ) (hN : 0 < N)
    (g : ι → ℝ) (hnc : ∃ a b, g a ≠ g b) :
    ∃ r, standardizeCore N g = some r ∧
      (∀ i, r i = (1 - 0) * (normalizedPart N g i -
          minI (normalizedPart N g)) /
          (maxI (normalizedPart N g) - minI (normalizedPart N g)) + 0) ∧
      (∀ i, 0 ≤ r i ∧ r i ≤ 1) ∧ (∃ i, r i = 0) ∧ (∃ i, r i = 1) := by
  obtain ⟨a0, b0, hab⟩ := hnc
  haveI : Nonempty ι := ⟨a0⟩
  have hvne : normalizedPart N g a0 ≠ normalizedPart N g b0 :=
    normalizedPart_ne N hN g hab
  have hlt : minI (normalizedPart N g) < maxI (normalizedPart N g) :=
    minI_lt_maxI _ ⟨a0, b0, hvne⟩
  have hd : (0 : ℝ) < maxI (normalizedPart N g) - minI (normalizedPart N g) := by
    linarith
  refine ⟨fun i => (1 - 0) * (normalizedPart N g i -
      minI (normalizedPart N g)) /
      (maxI (normalizedPart N g) - minI (normalizedPart N g)) + 0,
    ?_, fun i => rfl, ?_, ?_, ?_⟩
  · unfold standardizeCore rescale
    rw [if_neg (ne_of_gt hlt)]
  · intro i
    constructor
    · show (0 : ℝ) ≤ (1 - 0) * (normalizedPart N g i -
        minI (normalizedPart N g)) /
        (maxI (normalizedPart N g) - minI (normalizedPart N g)) + 0
      have h1 : minI (normalizedPart N g) ≤ normalizedPart N g i := minI_le _ i
      have h2 : (0 : ℝ) ≤ (normalizedPart N g i - minI (normalizedPart N g)) /
          (maxI (normalizedPart N g) - minI (normalizedPart N g)) :=
        div_nonneg (by linarith) hd.le
      rw [sub_zero, one_mul, add_zero]
      exact h2
    · show (1 - 0) * (normalizedPart N g i - minI (normalizedPart N g)) /
        (maxI (normalizedPart N g) - minI (normalizedPart N g)) + 0 ≤ 1
      have h1 : normalizedPart N g i ≤ maxI (normalizedPart N g) := le_maxI _ i
      have h2 : (normalizedPart N g i - minI (normalizedPart N g)) /
          (maxI (normalizedPart N g) - minI (normalizedPart N g)) ≤ 1 :=
        (div_le_one hd).2 (by linarith)
      rw [sub_zero, one_mul, add_zero]
      exact h2
  · obtain ⟨i, hi⟩ := exists_eq_minI (normalizedPart N g)
    refine ⟨i, ?_⟩
    show (1 - 0) * (normalizedPart N g i - minI (normalizedPart N g)) /
      (maxI (normalizedPart N g) - minI (normalizedPart N g)) + 0 = 0
    rw [hi, sub_self, mul_zero, zero_div, add_zero]
  · obtain ⟨i, hi⟩ := exists_eq_maxI (normalizedPart N g)
    refine ⟨i, ?_⟩
    show (1 - 0) * (normalizedPart N g i - minI (normalizedPart N g)) /
      (maxI (normalizedPart N g) - minI (normalizedPart N g)) + 0 = 1
    rw [hi, sub_zero, one_mul, div_self hd.ne', add_zero]

/-- Evaluation of `standardize` on a constant image: the normalized array
is identically zero and the rescale division by `max - min = 0` poisons
the output (modelled as `none`). -/
theorem standardize_const_eval (H W : ℕ) (hH : 0 < H) (hW : 0 < W) (c : ℝ) :
    (∀ a : Cell H W, normalizedPart (H * W) (fun _ : Cell H W => c) a = 0) ∧
    standardize2D (fun _ : Cell H W => c) = none := by
  haveI : Nonempty (Fin H) := Fin.pos_iff_nonempty.1 hH
  haveI : Nonempty (Fin W) := Fin.pos_iff_nonempty.1 hW
  have hcard : (0 : ℝ) < (Fintype.card (Cell H W) : ℝ) := by
    exact_mod_cast Fintype.card_pos
  have hmean : meanI (fun _ : Cell H W => c) = c := by
    unfold meanI
    rw [Finset.sum_const, Finset.card_univ, nsmul_eq_mul, mul_comm,
      mul_div_assoc, div_self hcard.ne', mul_one]
  have hnorm : ∀ a : Cell H W,
      normalizedPart (H * W) (fun _ : Cell H W => c) a = 0 := by
    intro a
    unfold normalizedPart
    rw [hmean, sub_self, zero_div]
  refine ⟨hnorm, ?_⟩
  have hv : normalizedPart (H * W) (fun _ : Cell H W => c) =
      fun _ : Cell H W => (0 : ℝ) := funext hnorm
  unfold standardize2D standardizeCore rescale
  rw [hv]
  rw [if_pos]
  · rfl
  · unfold maxI minI
    rw [dif_pos Finset.univ_nonempty, dif_pos Finset.univ_nonempty,
      Finset.sup'_const, Finset.inf'_const]

/-- Claim C6 counterexample: on the constant 2×2 image of value 5 the
output of `standardize` is the NaN-poisoned array (`none`), not an array
with minimum 0 and maximum 1. -/
theorem C6_standardize_counterexample :
    standardize2D (fun _ : Cell 2 2 => (5 : ℝ)) = none :=
  (standardize_const_eval 2 2 (by decide) (by decide) 5).2

/-- Claim C6 as amended: for every *non-constant* image, `standardize`
performs the guarded mean/std normalization followed by the linear rescale
sending the minimum to 0 and the maximum to 1; the output attains 0 and 1,
stays in [0,1], and a single-channel (2-D) input is replicated into
exactly 3 identical channels, while a 3-D input keeps its shape. -/
theorem C6_standardize_amended {H W : ℕ} (g : Cell H W → ℝ)
    (hnc : ∃ a b, g a ≠ g b) :
    (∃ o, standardize2D g = some o ∧
      (∀ a c, o a c = (1 - 0) * (normalizedPart (H * W) g a -
          minI (normalizedPart (H * W) g)) /
          (maxI (normalizedPart (H * W) g) - minI (normalizedPart (H * W) g))
          + 0) ∧
      (∀ a c, 0 ≤ o a c ∧ o a c ≤ 1) ∧
      (∃ a, o a 0 = 0) ∧ (∃ a, o a 0 = 1) ∧
      (∀ a c c', o a c = o a c')) ∧
    (∀ (C : ℕ) (g3 : Cell H W × Fin C → ℝ), (∃ x y, g3 x ≠ g3 y) →
      ∃ o3, standardize3D g3 = some o3 ∧
        (∀ x, 0 ≤ o3 x ∧ o3 x ≤ 1) ∧ (∃ x, o3 x = 0) ∧ (∃ x, o3 x = 1)) := by
  constructor
  · obtain ⟨a0, b0, hab⟩ := hnc
    haveI : Nonempty (Cell H W) := ⟨a0⟩
    have hN : 0 < H * W := by
      have := Fintype.card_pos (α := Cell H W)
      simpa [Fintype.card_prod, Fintype.card_fin] using this
    obtain ⟨r, hsome, hform, hbnd, hex0, hex1⟩ :=
      standardizeCore_some (H * W) hN g ⟨a0, b0, hab⟩
    refine ⟨fun a _ => r a, ?_, fun a c => hform a, fun a c => hbnd a,
      ?_, ?_, fun a c c' => rfl⟩
    · unfold standardize2D
      rw [hsome, Option.map_some']
    · obtain ⟨i, hi⟩ := hex0
      exact ⟨i, hi⟩
    · obtain ⟨i, hi⟩ := hex1
      exact ⟨i, hi⟩
  · intro C g3 hnc3
    obtain ⟨x0, y0, hxy⟩ := hnc3
    haveI : Nonempty (Cell H W) := ⟨x0.1⟩
    have hN : 0 < H * W := by
      have := Fintype.card_pos (α := Cell H W)
      simpa [Fintype.card_prod, Fintype.card_fin] using this
    obtain ⟨r, hsome, _, hbnd, hex0, hex1⟩ :=
      standardizeCore_some (H * W) hN g3 ⟨x0, y0, hxy⟩
    exact ⟨r, hsome, hbnd, hex0, hex1⟩

/-- Witness for the amended C6 on the 2×2 image with values equal to the
column index. -/
theorem C6_standardize_amended_witness :
    ∃ o, standardize2D (fun a : Cell 2 2 => (a.2.val : ℝ)) = some o ∧
      (∀ a c, o a c = (1 - 0) *
          (normalizedPart (2 * 2) (fun a : Cell 2 2 => (a.2.val : ℝ)) a -
          minI (normalizedPart (2 * 2) (fun a : Cell 2 2 => (a.2.val : ℝ)))) /
          (maxI (normalizedPart (2 * 2) (fun a : Cell 2 2 => (a.2.val : ℝ))) -
          minI (normalizedPart (2 * 2) (fun a : Cell 2 2 => (a.2.val : ℝ))))
          + 0) ∧
      (∀ a c, 0 ≤ o a c ∧ o a c ≤ 1) ∧
      (∃ a, o a 0 = 0) ∧ (∃ a, o a 0 = 1) ∧
      (∀ a c c', o a c = o a c') :=
  (C6_standardize_amended (fun a : Cell 2 2 => (a.2.val : ℝ))
    ⟨((0 : Fin 2), (0 : Fin 2)), ((0 : Fin 2), (1 : Fin 2)), by norm_num⟩).1

/-- Claim C10 (confirmed): on a constant image the guarded normalization
produces the all-zero array with a strictly positive scale (the std guard
works), yet the subsequent rescale divides by `max - min = 0`, so the
output is the NaN-poisoned array (`none`) — the guard does not protect
the rescale step. -/
theorem C10_standardize_const (H W : ℕ) (hH : 0 < H) (hW : 0 < W) (c : ℝ) :
    (∀ a : Cell H W, normalizedPart (H * W) (fun _ : Cell H W => c) a = 0) ∧
    0 < max (stdI (fun _ : Cell H W => c)) (1 / Real.sqrt ((H * W : ℕ))) ∧
    standardize2D (fun _ : Cell H W => c) = none :=
  ⟨(standardize_const_eval H W hH hW c).1,
   sAdj_pos (H * W) (Nat.mul_pos hH hW) _,
   (standardize_const_eval H W hH hW c).2⟩

/-- Witness for C10 on the 2×2 all-zero image. -/
theorem C10_standardize_const_witness :
    standardize2D (fun _ : Cell 2 2 => (0 : ℝ)) = none :=
  (C10_standardize_const 2 2 (by decide) (by decide) 0).2.2

/-- Claim C7 (confirmed): the combined probability map is the per-pixel
weighted mean of the (resized) member maps, and combining a single member
with weight list `[1]` returns exactly that member's map. -/
theorem C7_np_average {α : Type} (E : List (α → ℚ)) (Wt : List ℚ) :
    (∀ a, np_average E Wt a = weightedMean E Wt a) ∧
    (∀ e : α → ℚ, np_average [e] [1] = e) := by
  constructor
  · intro a
    unfold np_average weightedMean
    congr 1
    induction E generalizing Wt with
    | nil => simp
    | cons e es ih =>
      cases Wt with
      | nil => simp
      | cons w ws => simp [ih ws, mul_comm]
  · intro e
    funext a
    unfold np_average
    simp

/-- Claim C8 helper: `int(w/2/NCLASSES)` is the natural floor division
`w / (2*NCLASSES)`. -/
theorem mcKernel_eq (w K : ℕ) : mcKernel w K = w / (2 * K) := by
  unfold mcKernel
  rw [div_div, show ((2 : ℚ) * (K : ℚ)) = ((2 * K : ℕ) : ℚ) by push_cast; ring,
    Int.floor_toNat, Nat.floor_div_nat, Nat.floor_natCast]

/-- Claim C8 (confirmed): in the multiclass path each class channel is
independently max-filtered with kernel size `int(w/2/NCLASSES)` (the floor
of `width/(2*NCLASSES)`), the filtered maps are resized per channel, and
per pixel the label is the (first) argmax over classes while the
confidence is the max over classes; the label is a valid class index and
the resized value at the chosen label equals the confidence. -/
theorem C8_multiclass (m n w h K : ℕ) (hm : 0 < m) (hn : 0 < n) (hK : 0 < K)
    (pred : Cell m n → Fin K → ℚ) (R : (Cell m n → ℚ) → Cell w h → ℚ)
    (wNative : ℕ) (b : Cell w h) :
    mcKernel wNative K = wNative / (2 * K) ∧
    (multiclassPredict pred R wNative hm hn).2 b =
      maxQ (finList (fun k => R (maximum_filter (fun a => pred a k)
        (mcKernel wNative K) hm hn) b)) ∧
    (multiclassPredict pred R wNative hm hn).1 b =
      argmaxIdx (finList (fun k => R (maximum_filter (fun a => pred a k)
        (mcKernel wNative K) hm hn) b)) ∧
    (multiclassPredict pred R wNative hm hn).1 b < K ∧
    (finList (fun k => R (maximum_filter (fun a => pred a k)
        (mcKernel wNative K) hm hn) b)).getD
      ((multiclassPredict pred R wNative hm hn).1 b) 0 =
      (multiclassPredict pred R wNative hm hn).2 b := by
  have hlen : (finList (fun k => R (maximum_filter (fun a => pred a k)
      (mcKernel wNative K) hm hn) b)).length = K := by
    simp [finList]
  have hne : finList (fun k => R (maximum_filter (fun a => pred a k)
      (mcKernel wNative K) hm hn) b) ≠ [] := by
    apply List.ne_nil_of_length_pos
    rw [hlen]
    exact hK
  refine ⟨mcKernel_eq wNative K, rfl, rfl, ?_, ?_⟩
  · have := argmaxIdx_lt _ hne
    rw [hlen] at this
    exact this
  · exact argmaxIdx_getD _ hne

/-- Witness for C8 with two classes on a 1×1 grid and the identity as the
resize. -/
theorem C8_multiclass_witness :
    mcKernel 4 2 = 4 / (2 * 2) :=
  (C8_multiclass 1 1 1 1 2 (by decide) (by decide) (by decide)
    (fun _ k => (k.val : ℚ)) (fun gg => gg) 4
    ((0 : Fin 1), (0 : Fin 1))).1

/-- Claim C9 counterexample: the binary path writes a `_var.npz` artifact
but the multiclass path writes none — the claim that both paths write a
variance map is false for every multiclass image. -/
theorem C9_artifacts_counterexample :
    (multiclassArtifacts.filter (fun a => a.suffix == "_var.npz")).length
      = 0 ∧
    (binaryArtifacts.filter (fun a => a.suffix == "_var.npz")).length = 1 := by
  constructor <;> rfl

/-- Claim C9 as amended: for every processed image the binary path writes
both `conf_var/<name>_conf.npz` and `conf_var/<name>_var.npz` as
half-precision arrays in an (uncompressed, `np.savez`) npz container,
while the multiclass path writes only the confidence map and no variance
map. -/
theorem C9_artifacts_amended :
    Artifact.mk "conf_var" "_conf.npz" true false ∈ binaryArtifacts ∧
    Artifact.mk "conf_var" "_var.npz" true false ∈ binaryArtifacts ∧
    Artifact.mk "conf_var" "_conf.npz" true false ∈ multiclassArtifacts ∧
    multiclassArtifacts.all (fun a => a.suffix != "_var.npz") = true ∧
    (binaryArtifacts.filter (fun a => a.subdir == "conf_var")).all
      (fun a => a.float16 && !a.compressed) = true := by
  refine ⟨?_, ?_, ?_, ?_, ?_⟩ <;> decide

end SegGym
